import Mathlib

/-!
Formal model of the wordle-in-c program (src/wordle.c, src/wordle.h).

Words and guesses are byte strings, modelled as `List Nat` (byte values).
The scorer `check_guess` fills a six-byte character buffer: five feedback
characters followed by a NUL byte, exactly as the C function writes
`result[0..4]` and `result[5] = 0`.  The constants of wordle.h are the
literals 5 (WORD_LENGTH), 6 (MAX_ATTEMPTS) and 1500 (MAX_WORDS).
-/

namespace Wordle

/-- C `tolower` restricted to the ASCII table: bytes 65..90 map down by 32,
everything else is unchanged. -/
def tolower (c : Nat) : Nat := if 65 ≤ c ∧ c ≤ 90 then c + 32 else c

/-- The three per-letter classifications of the specification. -/
inductive LetterScore where
  | absent
  | wrongPosition
  | correctPosition
deriving DecidableEq

/-- First pass of `check_guess` (wordle.c lines 73-78): for each index i in
the given index list, when `tolower (guess[i]) = tolower (secret[i])` the
result byte i becomes the percent character and secret position i is marked
used. -/
def pass1 (secret guess : List Nat) : List Char → List Bool → List Nat → List Char × List Bool
  | result, used, [] => (result, used)
  | result, used, i :: is =>
    if tolower (guess.getD i 0) = tolower (secret.getD i 0) then
      pass1 secret guess (result.set i '%') (used.set i true) is
    else
      pass1 secret guess result used is

/-- Inner loop of the second pass (wordle.c lines 83-89): scan the index
list for the first j with `letter_used[j]` false and a case-insensitive
letter match, as the C loop with `break` does. -/
def scan (secret : List Nat) (used : List Bool) (g : Nat) : List Nat → Option Nat
  | [] => none
  | j :: js =>
    if used.getD j false = false ∧ tolower g = tolower (secret.getD j 0) then some j
    else scan secret used g js

/-- Second pass of `check_guess` (wordle.c lines 81-91): each index i whose
result byte is not the percent character scans the secret for the first
unused matching position; on success the result byte i becomes the question
mark and that secret position is consumed. -/
def pass2 (secret guess : List Nat) : List Char → List Bool → List Nat → List Char × List Bool
  | result, used, [] => (result, used)
  | result, used, i :: is =>
    if result.getD i '-' ≠ '%' then
      match scan secret used (guess.getD i 0) (List.range 5) with
      | some j => pass2 secret guess (result.set i '?') (used.set j true) is
      | none => pass2 secret guess result used is
    else pass2 secret guess result used is

/-- `check_guess` (wordle.c lines 63-92).  Lines 64-70 leave the buffer as
five dash characters followed by a NUL byte whatever the caller passed in,
so the function is modelled as producing the six-byte buffer outright. -/
def check_guess (secret guess : List Nat) : List Char :=
  let buf0 : List Char := List.replicate 5 '-' ++ [Char.ofNat 0]
  let p1 := pass1 secret guess buf0 (List.replicate 5 false) (List.range 5)
  (pass2 secret guess p1.1 p1.2 (List.range 5)).1

/-- The C string held in the result buffer: its five bytes before the NUL. -/
def resultString (secret guess : List Nat) : List Char :=
  (check_guess secret guess).take 5

/-- Reading of a feedback character, as fixed by `display_result`
(wordle.c lines 130-146): percent is green (correct position), question
mark is yellow (wrong position), anything else grey (absent). -/
def charToScore (c : Char) : LetterScore :=
  if c = '%' then .correctPosition else if c = '?' then .wrongPosition else .absent

/-- The ScoreRow of a guess: the five feedback characters read as
classifications. -/
def scoreRow (secret guess : List Nat) : List LetterScore :=
  (resultString secret guess).map charToScore

/-- Byte values of an ASCII string literal. -/
def strBytes (s : String) : List Nat := s.data.map Char.toNat

/-!
## The scoring algorithm as the specification words it

Section 4.2 of the specification describes `score(secret, guess)` as a
two-pass algorithm over consumed secret positions.  The definitions below
transcribe that description; `check_guess_spec_equiv` proves the program
refines it.
-/

/-- Spec pass 1: the set of secret positions consumed by exact matches,
namely every position i with `guess[i]` equal to `secret[i]`
case-insensitively. -/
def specConsumed1 (secret guess : List Nat) : List Nat :=
  (List.range 5).filter fun i => decide (tolower (guess.getD i 0) = tolower (secret.getD i 0))

/-- Spec pass 2 lookup: scan secret positions left-to-right for the first
unconsumed position whose letter equals the guessed letter
case-insensitively. -/
def specFind (secret : List Nat) (consumed : List Nat) (g : Nat) : Option Nat :=
  (List.range 5).find? fun j =>
    !(decide (j ∈ consumed)) && decide (tolower g = tolower (secret.getD j 0))

/-- Spec pass 2: positions already CorrectPosition from pass 1 stay so; any
other position is WrongPosition when an unconsumed matching secret position
exists (which is then consumed) and Absent otherwise. -/
def specPass2 (secret guess : List Nat) : List Nat → List Nat → List LetterScore
  | _, [] => []
  | consumed, i :: is =>
    if tolower (guess.getD i 0) = tolower (secret.getD i 0) then
      .correctPosition :: specPass2 secret guess consumed is
    else
      match specFind secret consumed (guess.getD i 0) with
      | some j => .wrongPosition :: specPass2 secret guess (j :: consumed) is
      | none => .absent :: specPass2 secret guess consumed is

/-- The ScoreRow described by the specification. -/
def specScore (secret guess : List Nat) : List LetterScore :=
  specPass2 secret guess (specConsumed1 secret guess) (List.range 5)

/-! ## Generic list helpers -/

theorem getD_set_ne {α : Type} (l : List α) :
    ∀ (i j : Nat) (v d : α), i ≠ j → (l.set i v).getD j d = l.getD j d := by
  induction l with
  | nil => intro i j v d _; rfl
  | cons a t ih =>
    intro i j v d h
    cases i with
    | zero =>
      cases j with
      | zero => exact absurd rfl h
      | succ k => rfl
    | succ i =>
      cases j with
      | zero => rfl
      | succ j =>
        show (t.set i v).getD j d = t.getD j d
        exact ih i j v d fun hh => h (by rw [hh])

theorem getD_set_self {α : Type} (l : List α) :
    ∀ (i : Nat) (v d : α), i < l.length → (l.set i v).getD i d = v := by
  induction l with
  | nil => intro i v d h; exact absurd h (by simp)
  | cons a t ih =>
    intro i v d h
    cases i with
    | zero => rfl
    | succ i =>
      show (t.set i v).getD i d = v
      exact ih i v d (by simpa using h)

theorem getD_set_cases {α : Type} (l : List α) (i j : Nat) (v d : α) :
    (l.set i v).getD j d = l.getD j d ∨ (l.set i v).getD j d = v := by
  by_cases h : i = j
  · subst h
    by_cases hl : i < l.length
    · exact Or.inr (getD_set_self l i v d hl)
    · left
      rw [List.set_eq_of_length_le (by omega)]
  · exact Or.inl (getD_set_ne l i j v d h)

theorem exists_five {α : Type} (l : List α) (h : l.length = 5) :
    ∃ a b c d e, l = [a, b, c, d, e] := by
  cases l with
  | nil => simp at h
  | cons a l =>
    cases l with
    | nil => simp at h
    | cons b l =>
      cases l with
      | nil => simp at h
      | cons c l =>
        cases l with
        | nil => simp at h
        | cons d l =>
          cases l with
          | nil => simp at h
          | cons e l =>
            cases l with
            | nil => exact ⟨a, b, c, d, e, rfl⟩
            | cons f l => simp only [List.length] at h; omega

theorem exists_six {α : Type} (l : List α) (h : l.length = 6) :
    ∃ a b c d e f, l = [a, b, c, d, e, f] := by
  cases l with
  | nil => simp at h
  | cons a l =>
    obtain ⟨b, c, d, e, f, hl⟩ := exists_five l (by simpa using h)
    exact ⟨a, b, c, d, e, f, by rw [hl]⟩

/-! ## Behaviour of the two passes -/

theorem pass1_length (secret guess : List Nat) :
    ∀ (is : List Nat) (result : List Char) (used : List Bool),
      (pass1 secret guess result used is).1.length = result.length ∧
      (pass1 secret guess result used is).2.length = used.length := by
  intro is
  induction is with
  | nil => intro r u; exact ⟨rfl, rfl⟩
  | cons i is ih =>
    intro r u
    simp only [pass1]
    split
    · simpa [List.length_set] using ih (r.set i '%') (u.set i true)
    · exact ih r u

theorem pass1_getD_not_mem (secret guess : List Nat) :
    ∀ (is : List Nat) (result : List Char) (used : List Bool) (k : Nat) (dc : Char) (db : Bool),
      k ∉ is →
      (pass1 secret guess result used is).1.getD k dc = result.getD k dc ∧
      (pass1 secret guess result used is).2.getD k db = used.getD k db := by
  intro is
  induction is with
  | nil => intro r u k dc db _; exact ⟨rfl, rfl⟩
  | cons i is ih =>
    intro r u k dc db hk
    have hik : i ≠ k := fun h => hk (h ▸ List.mem_cons_self i is)
    have hk' : k ∉ is := fun h => hk (List.mem_cons_of_mem _ h)
    simp only [pass1]
    split
    · obtain ⟨h1, h2⟩ := ih (r.set i '%') (u.set i true) k dc db hk'
      rw [h1, h2, getD_set_ne r i k _ _ hik, getD_set_ne u i k _ _ hik]
      exact ⟨rfl, rfl⟩
    · exact ih r u k dc db hk'

theorem pass1_getD_mem (secret guess : List Nat) :
    ∀ (is : List Nat) (result : List Char) (used : List Bool) (k : Nat),
      is.Nodup → k ∈ is → k < result.length → k < used.length →
      ((pass1 secret guess result used is).1.getD k '-' =
        if tolower (guess.getD k 0) = tolower (secret.getD k 0) then '%'
        else result.getD k '-') ∧
      ((pass1 secret guess result used is).2.getD k false =
        if tolower (guess.getD k 0) = tolower (secret.getD k 0) then true
        else used.getD k false) := by
  intro is
  induction is with
  | nil => intro r u k _ hk _ _; exact absurd hk (List.not_mem_nil k)
  | cons i is ih =>
    intro r u k hnd hk hr hu
    by_cases hik : k = i
    · subst hik
      have hnotin : k ∉ is := (List.nodup_cons.mp hnd).1
      by_cases hc : tolower (guess.getD k 0) = tolower (secret.getD k 0)
      · simp only [pass1, if_pos hc]
        obtain ⟨h1, h2⟩ := pass1_getD_not_mem secret guess is _ _ k '-' false hnotin
        rw [h1, h2, getD_set_self r k '%' '-' hr, getD_set_self u k true false hu]
        simp [hc]
      · simp only [pass1, if_neg hc]
        obtain ⟨h1, h2⟩ := pass1_getD_not_mem secret guess is r u k '-' false hnotin
        rw [h1, h2]
        simp [hc]
    · have hk' : k ∈ is := by
        rcases List.mem_cons.mp hk with h | h
        · exact absurd h hik
        · exact h
      have hnd' : is.Nodup := (List.nodup_cons.mp hnd).2
      by_cases hc : tolower (guess.getD i 0) = tolower (secret.getD i 0)
      · simp only [pass1, if_pos hc]
        have hres := ih (r.set i '%') (u.set i true) k hnd' hk'
          (by simpa [List.length_set] using hr) (by simpa [List.length_set] using hu)
        rwa [getD_set_ne r i k _ _ (fun h => hik h.symm),
          getD_set_ne u i k _ _ (fun h => hik h.symm)] at hres
      · simp only [pass1, if_neg hc]
        exact ih r u k hnd' hk' hr hu

theorem scan_eq_find (secret : List Nat) (used : List Bool) (consumed : List Nat) (g : Nat)
    (hrel : ∀ j, j < 5 → (used.getD j false = true ↔ j ∈ consumed)) :
    ∀ js : List Nat, (∀ j ∈ js, j < 5) →
      scan secret used g js =
        js.find? (fun j =>
          !(decide (j ∈ consumed)) && decide (tolower g = tolower (secret.getD j 0))) := by
  intro js
  induction js with
  | nil => intro _; rfl
  | cons j js ih =>
    intro hj
    have hj5 : j < 5 := hj j (List.mem_cons_self j js)
    have hrest : ∀ x ∈ js, x < 5 := fun x hx => hj x (List.mem_cons_of_mem _ hx)
    by_cases hc : used.getD j false = false ∧ tolower g = tolower (secret.getD j 0)
    · have hjc : j ∉ consumed := fun hm => by
        have := (hrel j hj5).mpr hm
        rw [hc.1] at this
        exact Bool.false_ne_true this
      have hp : (!(decide (j ∈ consumed)) &&
          decide (tolower g = tolower (secret.getD j 0))) = true := by
        simp [hjc, hc.2]
      rw [List.find?_cons_of_pos (p := fun j =>
        !(decide (j ∈ consumed)) && decide (tolower g = tolower (secret.getD j 0))) _ hp]
      simp only [scan, if_pos hc]
    · have hp : ¬ ((!(decide (j ∈ consumed)) &&
          decide (tolower g = tolower (secret.getD j 0))) = true) := by
        simp only [Bool.and_eq_true, Bool.not_eq_true', decide_eq_false_iff_not,
          decide_eq_true_eq]
        rintro ⟨h1, h2⟩
        apply hc
        refine ⟨?_, h2⟩
        cases h3 : used.getD j false
        · rfl
        · exact absurd ((hrel j hj5).mp h3) h1
      rw [List.find?_cons_of_neg (p := fun j =>
        !(decide (j ∈ consumed)) && decide (tolower g = tolower (secret.getD j 0))) _ hp]
      simp only [scan, if_neg hc]
      exact ih hrest

theorem pass2_getD_not_mem (secret guess : List Nat) :
    ∀ (is : List Nat) (result : List Char) (used : List Bool) (k : Nat) (d : Char),
      k ∉ is → (pass2 secret guess result used is).1.getD k d = result.getD k d := by
  intro is
  induction is with
  | nil => intro r u k d _; rfl
  | cons i is ih =>
    intro r u k d hk
    have hik : i ≠ k := fun h => hk (h ▸ List.mem_cons_self i is)
    have hk' : k ∉ is := fun h => hk (List.mem_cons_of_mem _ h)
    by_cases hifc : r.getD i '-' ≠ '%'
    · cases hscan : scan secret u (guess.getD i 0) (List.range 5) with
      | none =>
        simp only [pass2, if_pos hifc, hscan]
        exact ih r u k d hk'
      | some j =>
        simp only [pass2, if_pos hifc, hscan]
        rw [ih (r.set i '?') (u.set j true) k d hk', getD_set_ne r i k _ _ hik]
    · simp only [pass2, if_neg hifc]
      exact ih r u k d hk'

theorem pass2_result_length (secret guess : List Nat) :
    ∀ (is : List Nat) (result : List Char) (used : List Bool),
      (pass2 secret guess result used is).1.length = result.length := by
  intro is
  induction is with
  | nil => intro r u; rfl
  | cons i is ih =>
    intro r u
    by_cases hifc : r.getD i '-' ≠ '%'
    · cases hscan : scan secret u (guess.getD i 0) (List.range 5) with
      | none =>
        simp only [pass2, if_pos hifc, hscan]
        exact ih r u
      | some j =>
        simp only [pass2, if_pos hifc, hscan]
        rw [ih (r.set i '?') (u.set j true), List.length_set]
    · simp only [pass2, if_neg hifc]
      exact ih r u

/-- Simulation of the second pass by pass 2 of the specification: with the
used-flags agreeing with the consumed set and the buffer marked with the
percent character exactly at exact-match positions, reading the final
buffer along the remaining index list yields the spec row. -/
theorem pass2_sim (secret guess : List Nat) :
    ∀ (is : List Nat) (result : List Char) (used : List Bool) (consumed : List Nat),
      is.Nodup →
      (∀ i ∈ is, i < 5) →
      5 ≤ result.length →
      used.length = 5 →
      (∀ j, j < 5 → (used.getD j false = true ↔ j ∈ consumed)) →
      (∀ i ∈ is, (result.getD i '-' = '%' ↔
        tolower (guess.getD i 0) = tolower (secret.getD i 0))) →
      (∀ i ∈ is, result.getD i '-' = '%' ∨ result.getD i '-' = '-') →
      (is.map fun i => charToScore ((pass2 secret guess result used is).1.getD i '-')) =
        specPass2 secret guess consumed is := by
  intro is
  induction is with
  | nil => intros; rfl
  | cons i is ih =>
    intro r u c hnd hlt hr hu hrel hiff hdash
    have hi5 : i < 5 := hlt i (List.mem_cons_self i is)
    have hnotin : i ∉ is := (List.nodup_cons.mp hnd).1
    have hnd' : is.Nodup := (List.nodup_cons.mp hnd).2
    have hlt' : ∀ x ∈ is, x < 5 := fun x hx => hlt x (List.mem_cons_of_mem _ hx)
    have hiff' : ∀ x ∈ is, (r.getD x '-' = '%' ↔
        tolower (guess.getD x 0) = tolower (secret.getD x 0)) :=
      fun x hx => hiff x (List.mem_cons_of_mem _ hx)
    have hdash' : ∀ x ∈ is, r.getD x '-' = '%' ∨ r.getD x '-' = '-' :=
      fun x hx => hdash x (List.mem_cons_of_mem _ hx)
    by_cases hm : tolower (guess.getD i 0) = tolower (secret.getD i 0)
    · have hpc : r.getD i '-' = '%' := (hiff i (List.mem_cons_self i is)).mpr hm
      have hifc : ¬ (r.getD i '-' ≠ '%') := fun h => h hpc
      have hhead : (pass2 secret guess r u is).1.getD i '-' = '%' := by
        rw [pass2_getD_not_mem secret guess is r u i '-' hnotin]
        exact hpc
      simp only [pass2, if_neg hifc, List.map_cons, hhead, specPass2, if_pos hm]
      rw [show charToScore '%' = LetterScore.correctPosition from by decide]
      exact congrArg _ (ih r u c hnd' hlt' hr hu hrel hiff' hdash')
    · have hnotpc : r.getD i '-' ≠ '%' := fun h => hm ((hiff i (List.mem_cons_self i is)).mp h)
      have hr5 : ∀ x ∈ List.range 5, x < 5 := fun x hx => List.mem_range.mp hx
      cases hfind : specFind secret c (guess.getD i 0) with
      | some j =>
        have hfind' : (List.range 5).find? (fun j =>
            !(decide (j ∈ c)) && decide (tolower (guess.getD i 0) =
              tolower (secret.getD j 0))) = some j := hfind
        have hscan : scan secret u (guess.getD i 0) (List.range 5) = some j := by
          rw [scan_eq_find secret u c _ hrel (List.range 5) hr5]
          exact hfind'
        have hj5 : j < 5 := List.mem_range.mp (List.mem_of_find?_eq_some hfind')
        have hpred := List.find?_some hfind'
        simp only [Bool.and_eq_true, Bool.not_eq_true', decide_eq_false_iff_not,
          decide_eq_true_eq] at hpred
        have hhead : (pass2 secret guess (r.set i '?') (u.set j true) is).1.getD i '-' = '?' := by
          rw [pass2_getD_not_mem secret guess is _ _ i '-' hnotin,
            getD_set_self r i '?' '-' (by omega)]
        simp only [pass2, if_pos hnotpc, hscan, List.map_cons, hhead, specPass2,
          if_neg hm, hfind]
        rw [show charToScore '?' = LetterScore.wrongPosition from by decide]
        refine congrArg _ (ih (r.set i '?') (u.set j true) (j :: c) hnd' hlt' ?_ ?_ ?_ ?_ ?_)
        · rw [List.length_set]; exact hr
        · rw [List.length_set]; exact hu
        · intro k hk5
          by_cases hkj : k = j
          · subst hkj
            rw [getD_set_self u k true false (by omega)]
            simp
          · rw [getD_set_ne u j k _ _ (fun h => hkj h.symm)]
            rw [hrel k hk5]
            simp [List.mem_cons, hkj]
        · intro x hx
          rw [getD_set_ne r i x _ _ (fun h => hnotin (h ▸ hx))]
          exact hiff' x hx
        · intro x hx
          rw [getD_set_ne r i x _ _ (fun h => hnotin (h ▸ hx))]
          exact hdash' x hx
      | none =>
        have hfind' : (List.range 5).find? (fun j =>
            !(decide (j ∈ c)) && decide (tolower (guess.getD i 0) =
              tolower (secret.getD j 0))) = none := hfind
        have hscan : scan secret u (guess.getD i 0) (List.range 5) = none := by
          rw [scan_eq_find secret u c _ hrel (List.range 5) hr5]
          exact hfind'
        have hhead : (pass2 secret guess r u is).1.getD i '-' = '-' := by
          rw [pass2_getD_not_mem secret guess is r u i '-' hnotin]
          exact (hdash i (List.mem_cons_self i is)).resolve_left hnotpc
        simp only [pass2, if_pos hnotpc, hscan, List.map_cons, hhead, specPass2,
          if_neg hm, hfind]
        rw [show charToScore '-' = LetterScore.absent from by decide]
        exact congrArg _ (ih r u c hnd' hlt' hr hu hrel hiff' hdash')

theorem check_guess_eq (secret guess : List Nat) :
    check_guess secret guess =
      (pass2 secret guess
        (pass1 secret guess (List.replicate 5 '-' ++ [Char.ofNat 0])
          (List.replicate 5 false) (List.range 5)).1
        (pass1 secret guess (List.replicate 5 '-' ++ [Char.ofNat 0])
          (List.replicate 5 false) (List.range 5)).2
        (List.range 5)).1 := rfl

/-- The ScoreRow of the program is exactly the one described by the
two-pass algorithm of the specification, for any byte strings at all. -/
theorem scoreRow_eq_spec (secret guess : List Nat) :
    scoreRow secret guess = specScore secret guess := by
  have hbuf : ∀ k, k < 5 → (List.replicate 5 '-' ++ [Char.ofNat 0]).getD k '-' = '-' := by
    intro k hk
    interval_cases k <;> rfl
  have hu0 : ∀ k, k < 5 → (List.replicate 5 false).getD k false = false := by
    intro k hk
    interval_cases k <;> rfl
  have hrlen : (pass1 secret guess (List.replicate 5 '-' ++ [Char.ofNat 0])
      (List.replicate 5 false) (List.range 5)).1.length = 6 := by
    rw [(pass1_length secret guess (List.range 5) _ _).1]
    rfl
  have hulen : (pass1 secret guess (List.replicate 5 '-' ++ [Char.ofNat 0])
      (List.replicate 5 false) (List.range 5)).2.length = 5 := by
    rw [(pass1_length secret guess (List.range 5) _ _).2]
    rfl
  have hmem : ∀ k, k < 5 →
      ((pass1 secret guess (List.replicate 5 '-' ++ [Char.ofNat 0])
          (List.replicate 5 false) (List.range 5)).1.getD k '-' =
        if tolower (guess.getD k 0) = tolower (secret.getD k 0) then '%'
        else (List.replicate 5 '-' ++ [Char.ofNat 0]).getD k '-') ∧
      ((pass1 secret guess (List.replicate 5 '-' ++ [Char.ofNat 0])
          (List.replicate 5 false) (List.range 5)).2.getD k false =
        if tolower (guess.getD k 0) = tolower (secret.getD k 0) then true
        else (List.replicate 5 false).getD k false) := by
    intro k hk
    exact pass1_getD_mem secret guess (List.range 5) _ _ k (List.nodup_range 5)
      (List.mem_range.mpr hk) (by simp; omega) (by simp; omega)
  have hiff : ∀ i ∈ List.range 5,
      ((pass1 secret guess (List.replicate 5 '-' ++ [Char.ofNat 0])
          (List.replicate 5 false) (List.range 5)).1.getD i '-' = '%' ↔
        tolower (guess.getD i 0) = tolower (secret.getD i 0)) := by
    intro i hi
    have hi5 := List.mem_range.mp hi
    rw [(hmem i hi5).1]
    by_cases hc : tolower (guess.getD i 0) = tolower (secret.getD i 0)
    · rw [if_pos hc]
      exact iff_of_true rfl hc
    · rw [if_neg hc, hbuf i hi5]
      exact iff_of_false (by decide) hc
  have hdash : ∀ i ∈ List.range 5,
      (pass1 secret guess (List.replicate 5 '-' ++ [Char.ofNat 0])
          (List.replicate 5 false) (List.range 5)).1.getD i '-' = '%' ∨
      (pass1 secret guess (List.replicate 5 '-' ++ [Char.ofNat 0])
          (List.replicate 5 false) (List.range 5)).1.getD i '-' = '-' := by
    intro i hi
    have hi5 := List.mem_range.mp hi
    rw [(hmem i hi5).1]
    by_cases hc : tolower (guess.getD i 0) = tolower (secret.getD i 0)
    · rw [if_pos hc]
      exact Or.inl rfl
    · rw [if_neg hc, hbuf i hi5]
      exact Or.inr rfl
  have hrel : ∀ j, j < 5 →
      ((pass1 secret guess (List.replicate 5 '-' ++ [Char.ofNat 0])
          (List.replicate 5 false) (List.range 5)).2.getD j false = true ↔
        j ∈ specConsumed1 secret guess) := by
    intro j hj5
    rw [(hmem j hj5).2]
    by_cases hc : tolower (guess.getD j 0) = tolower (secret.getD j 0)
    · rw [if_pos hc]
      exact iff_of_true rfl
        (List.mem_filter.mpr ⟨List.mem_range.mpr hj5, by simp only [decide_eq_true_eq]; exact hc⟩)
    · rw [if_neg hc, hu0 j hj5]
      refine iff_of_false (by decide) ?_
      intro hmem2
      exact hc (by simpa using (List.mem_filter.mp hmem2).2)
  have hsim := pass2_sim secret guess (List.range 5) _ _ (specConsumed1 secret guess)
    (List.nodup_range 5) (fun x hx => List.mem_range.mp hx)
    (by rw [hrlen]; omega) hulen hrel hiff hdash
  have hlen2 : (pass2 secret guess
      (pass1 secret guess (List.replicate 5 '-' ++ [Char.ofNat 0])
        (List.replicate 5 false) (List.range 5)).1
      (pass1 secret guess (List.replicate 5 '-' ++ [Char.ofNat 0])
        (List.replicate 5 false) (List.range 5)).2
      (List.range 5)).1.length = 6 := by
    rw [pass2_result_length, hrlen]
  obtain ⟨a, b, c, d, e, f, hfin⟩ := exists_six _ hlen2
  rw [hfin] at hsim
  show (((check_guess secret guess).take 5).map charToScore) = specScore secret guess
  rw [check_guess_eq, hfin]
  exact hsim

/-! ## Counting feedback characters -/

/-- Number of occurrences of a character in a feedback string. -/
def countChar (c : Char) (l : List Char) : Nat := l.countP (fun x => decide (x = c))

theorem charToScore_eq_correct (x : Char) :
    charToScore x = LetterScore.correctPosition ↔ x = '%' := by
  by_cases h1 : x = '%'
  · simp [charToScore, h1]
  · by_cases h2 : x = '?' <;> simp [charToScore, h1, h2]

theorem charToScore_eq_wrong (x : Char) :
    charToScore x = LetterScore.wrongPosition ↔ x = '?' := by
  by_cases h1 : x = '%'
  · simp [charToScore, h1]
  · by_cases h2 : x = '?' <;> simp [charToScore, h1, h2]

theorem countChar_spec (secret guess : List Nat) (c : Char) (sc : LetterScore)
    (hcs : ∀ x : Char, charToScore x = sc ↔ x = c) :
    countChar c (resultString secret guess) =
      (specScore secret guess).countP (fun x => decide (x = sc)) := by
  rw [← scoreRow_eq_spec]
  show (resultString secret guess).countP (fun x => decide (x = c)) = _
  rw [scoreRow, List.countP_map]
  apply List.countP_congr
  intro x _
  simp only [Function.comp_apply, decide_eq_true_eq]
  exact (hcs x).symm

theorem specPass2_countCP (secret guess : List Nat) :
    ∀ (is c : List Nat),
      (specPass2 secret guess c is).countP
          (fun x => decide (x = LetterScore.correctPosition)) =
        (is.filter fun i =>
          decide (tolower (guess.getD i 0) = tolower (secret.getD i 0))).length := by
  intro is
  induction is with
  | nil => intro c; rfl
  | cons i is ih =>
    intro c
    by_cases hm : tolower (guess.getD i 0) = tolower (secret.getD i 0)
    · rw [show specPass2 secret guess c (i :: is) =
          LetterScore.correctPosition :: specPass2 secret guess c is from by
        simp only [specPass2, if_pos hm]]
      rw [List.countP_cons_of_pos _ _ (by decide), ih c]
      simp only [List.filter_cons, decide_eq_true_eq, if_pos hm, List.length_cons]
    · cases hfind : specFind secret c (guess.getD i 0) with
      | some j =>
        rw [show specPass2 secret guess c (i :: is) =
            LetterScore.wrongPosition :: specPass2 secret guess (j :: c) is from by
          simp only [specPass2, if_neg hm, hfind]]
        rw [List.countP_cons_of_neg _ _ (by decide), ih (j :: c)]
        simp only [List.filter_cons, decide_eq_true_eq, if_neg hm]
      | none =>
        rw [show specPass2 secret guess c (i :: is) =
            LetterScore.absent :: specPass2 secret guess c is from by
          simp only [specPass2, if_neg hm, hfind]]
        rw [List.countP_cons_of_neg _ _ (by decide), ih c]
        simp only [List.filter_cons, decide_eq_true_eq, if_neg hm]

theorem filter_length_eq_iff {α : Type} (p : α → Bool) (l : List α) :
    (l.filter p).length = l.length ↔ ∀ a ∈ l, p a = true := by
  induction l with
  | nil => simp
  | cons a l ih =>
    by_cases hp : p a = true
    · simp [List.filter_cons, hp, ih]
    · have hle := List.length_filter_le p l
      refine iff_of_false (fun h => ?_) (fun h => hp (h a (List.mem_cons_self a l)))
      rw [List.filter_cons, if_neg hp, List.length_cons] at h
      omega

theorem all_match_iff_map_eq (secret guess : List Nat)
    (hs : secret.length = 5) (hg : guess.length = 5) :
    (∀ i ∈ List.range 5, tolower (guess.getD i 0) = tolower (secret.getD i 0)) ↔
      guess.map tolower = secret.map tolower := by
  obtain ⟨s0, s1, s2, s3, s4, hsv⟩ := exists_five secret hs
  obtain ⟨g0, g1, g2, g3, g4, hgv⟩ := exists_five guess hg
  subst hsv hgv
  constructor
  · intro h
    have h0 : tolower g0 = tolower s0 := h 0 (by decide)
    have h1 : tolower g1 = tolower s1 := h 1 (by decide)
    have h2 : tolower g2 = tolower s2 := h 2 (by decide)
    have h3 : tolower g3 = tolower s3 := h 3 (by decide)
    have h4 : tolower g4 = tolower s4 := h 4 (by decide)
    simp [h0, h1, h2, h3, h4]
  · intro h i hi
    have h5 := List.mem_range.mp hi
    obtain ⟨h0, h1, h2, h3, h4⟩ :
        tolower g0 = tolower s0 ∧ tolower g1 = tolower s1 ∧ tolower g2 = tolower s2 ∧
          tolower g3 = tolower s3 ∧ tolower g4 = tolower s4 := by simpa using h
    interval_cases i
    · exact h0
    · exact h1
    · exact h2
    · exact h3
    · exact h4

/-! ## Claims about the scorer -/

/-- C1: the claimed ScoreRow for secret "CRANE", guess "CANOE" is wrong:
the program does not produce
[CorrectPosition, WrongPosition, Absent, Absent, CorrectPosition]. -/
theorem crane_canoe_claim_false :
    ¬ (scoreRow (strBytes "CRANE") (strBytes "CANOE") =
      [LetterScore.correctPosition, LetterScore.wrongPosition, LetterScore.absent,
        LetterScore.absent, LetterScore.correctPosition]) := by
  decide

/-- C1 (amended): for secret "CRANE" and guess "CANOE", check_guess produces
the ScoreRow [CorrectPosition, WrongPosition, WrongPosition, Absent,
CorrectPosition], i.e. the result string "%??-%": the guessed N at position 2
is credited to the unconsumed N of CRANE. -/
theorem crane_canoe_score :
    scoreRow (strBytes "CRANE") (strBytes "CANOE") =
      [LetterScore.correctPosition, LetterScore.wrongPosition, LetterScore.wrongPosition,
        LetterScore.absent, LetterScore.correctPosition] ∧
    resultString (strBytes "CRANE") (strBytes "CANOE") = ['%', '?', '?', '-', '%'] := by
  decide

/-- C2: for every secret and guess of length 5, check_guess follows the
two-pass algorithm of the specification: pass 1 marks exactly the
case-insensitive positional matches as CorrectPosition and consumes those
secret positions; pass 2 marks each remaining position WrongPosition while
consuming the leftmost unconsumed matching secret position, else Absent. -/
theorem check_guess_follows_spec (secret guess : List Nat)
    (_hs : secret.length = 5) (_hg : guess.length = 5) :
    scoreRow secret guess = specScore secret guess :=
  scoreRow_eq_spec secret guess

theorem check_guess_follows_spec_witness :
    (strBytes "CRANE").length = 5 ∧ (strBytes "CANOE").length = 5 ∧
      scoreRow (strBytes "CRANE") (strBytes "CANOE") =
        specScore (strBytes "CRANE") (strBytes "CANOE") :=
  ⟨by decide, by decide,
    check_guess_follows_spec (strBytes "CRANE") (strBytes "CANOE") (by decide) (by decide)⟩

/-- C3: the number of CorrectPosition entries (percent characters) equals
the number of positions with a case-insensitive exact match, and that count
is 5 exactly when guess and secret agree letter-for-letter
case-insensitively. -/
theorem correct_count (secret guess : List Nat)
    (hs : secret.length = 5) (hg : guess.length = 5) :
    countChar '%' (resultString secret guess) =
      ((List.range 5).filter fun i =>
        decide (tolower (guess.getD i 0) = tolower (secret.getD i 0))).length ∧
    (countChar '%' (resultString secret guess) = 5 ↔
      guess.map tolower = secret.map tolower) := by
  have hcount : countChar '%' (resultString secret guess) =
      ((List.range 5).filter fun i =>
        decide (tolower (guess.getD i 0) = tolower (secret.getD i 0))).length := by
    rw [countChar_spec secret guess '%' LetterScore.correctPosition charToScore_eq_correct]
    exact specPass2_countCP secret guess (List.range 5) (specConsumed1 secret guess)
  refine ⟨hcount, ?_⟩
  rw [hcount]
  constructor
  · intro hlen
    apply (all_match_iff_map_eq secret guess hs hg).mp
    intro i hi
    have hall := (filter_length_eq_iff (fun i =>
        decide (tolower (guess.getD i 0) = tolower (secret.getD i 0))) (List.range 5)).mp
      (by rw [hlen]; decide)
    simpa using hall i hi
  · intro hmap
    have hall := (all_match_iff_map_eq secret guess hs hg).mpr hmap
    have heq := (filter_length_eq_iff (fun i =>
        decide (tolower (guess.getD i 0) = tolower (secret.getD i 0))) (List.range 5)).mpr
      (fun i hi => by simp only [decide_eq_true_eq]; exact hall i hi)
    rw [heq]
    decide

theorem correct_count_witness :
    (strBytes "CRANE").length = 5 ∧ (strBytes "CRATE").length = 5 ∧
      (countChar '%' (resultString (strBytes "CRANE") (strBytes "CRATE")) =
        ((List.range 5).filter fun i =>
          decide (tolower ((strBytes "CRATE").getD i 0) =
            tolower ((strBytes "CRANE").getD i 0))).length ∧
      (countChar '%' (resultString (strBytes "CRANE") (strBytes "CRATE")) = 5 ↔
        (strBytes "CRATE").map tolower = (strBytes "CRANE").map tolower)) :=
  ⟨by decide, by decide,
    correct_count (strBytes "CRANE") (strBytes "CRATE") (by decide) (by decide)⟩

/-! ## No double-crediting (C4) -/

theorem range5_map_getD {α : Type} (f : Nat → α) (l : List Nat) (hl : l.length = 5) :
    (List.range 5).map (fun i => f (l.getD i 0)) = l.map f := by
  obtain ⟨a, b, c, d, e, hv⟩ := exists_five l hl
  subst hv
  rfl

/-- Each WrongPosition mark of spec pass 2 consumes one fresh secret
position whose letter is the guessed letter: the newly consumed positions
`ns` stay disjoint from `c`, and their secret letters form a sub-multiset
of the guess letters at non-matching positions of the index list. -/
theorem specPass2_credit (secret guess : List Nat) :
    ∀ (is c : List Nat), c.Nodup → (∀ j ∈ c, j < 5) →
      ∃ ns : List Nat,
        (ns ++ c).Nodup ∧ (∀ j ∈ ns, j < 5) ∧
        (specPass2 secret guess c is).countP
            (fun x => decide (x = LetterScore.wrongPosition)) = ns.length ∧
        ((ns.map fun j => tolower (secret.getD j 0)) : Multiset Nat) ≤
          (((is.filter fun i =>
              !(decide (tolower (guess.getD i 0) = tolower (secret.getD i 0)))).map
            fun i => tolower (guess.getD i 0)) : Multiset Nat) := by
  intro is
  induction is with
  | nil =>
    intro c hnd hlt
    exact ⟨[], by simpa using hnd, by simp, rfl, by simp⟩
  | cons i is ih =>
    intro c hnd hlt
    by_cases hm : tolower (guess.getD i 0) = tolower (secret.getD i 0)
    · obtain ⟨ns, h1, h2, h3, h4⟩ := ih c hnd hlt
      refine ⟨ns, h1, h2, ?_, ?_⟩
      · rw [show specPass2 secret guess c (i :: is) =
            LetterScore.correctPosition :: specPass2 secret guess c is from by
          simp only [specPass2, if_pos hm]]
        rw [List.countP_cons_of_neg _ _ (by decide)]
        exact h3
      · have hbf : (!(decide (tolower (guess.getD i 0) = tolower (secret.getD i 0)))) = false := by
          rw [decide_eq_true hm]
          rfl
        rw [show (i :: is).filter (fun i =>
            !(decide (tolower (guess.getD i 0) = tolower (secret.getD i 0)))) =
            is.filter (fun i =>
              !(decide (tolower (guess.getD i 0) = tolower (secret.getD i 0)))) from by
          rw [List.filter_cons, hbf]
          rfl]
        exact h4
    · have hbt : (!(decide (tolower (guess.getD i 0) = tolower (secret.getD i 0)))) = true := by
        rw [decide_eq_false hm]
        rfl
      have hkeep : (i :: is).filter (fun i =>
          !(decide (tolower (guess.getD i 0) = tolower (secret.getD i 0)))) =
          i :: is.filter (fun i =>
            !(decide (tolower (guess.getD i 0) = tolower (secret.getD i 0)))) := by
        rw [List.filter_cons, hbt]
        rfl
      cases hfind : specFind secret c (guess.getD i 0) with
      | some j =>
        have hfind' : (List.range 5).find? (fun j =>
            !(decide (j ∈ c)) && decide (tolower (guess.getD i 0) =
              tolower (secret.getD j 0))) = some j := hfind
        have hj5 : j < 5 := List.mem_range.mp (List.mem_of_find?_eq_some hfind')
        have hpred := List.find?_some hfind'
        simp only [Bool.and_eq_true, Bool.not_eq_true', decide_eq_false_iff_not,
          decide_eq_true_eq] at hpred
        obtain ⟨ns, h1, h2, h3, h4⟩ := ih (j :: c)
          (List.nodup_cons.mpr ⟨hpred.1, hnd⟩)
          (fun x hx => by
            rcases List.mem_cons.mp hx with h | h
            · omega
            · exact hlt x h)
        refine ⟨ns ++ [j], ?_, ?_, ?_, ?_⟩
        · rw [List.append_assoc]
          exact h1
        · intro x hx
          rcases List.mem_append.mp hx with h | h
          · exact h2 x h
          · rw [List.mem_singleton.mp h]
            exact hj5
        · rw [show specPass2 secret guess c (i :: is) =
              LetterScore.wrongPosition :: specPass2 secret guess (j :: c) is from by
            simp only [specPass2, if_neg hm, hfind]]
          rw [List.countP_cons_of_pos _ _ (by decide), h3]
          simp
        · rw [hkeep, List.map_cons]
          have hjy : tolower (secret.getD j 0) = tolower (guess.getD i 0) := hpred.2.symm
          have e1 : ((ns ++ [j]).map fun j => tolower (secret.getD j 0)) =
              (ns.map fun j => tolower (secret.getD j 0)) ++ [tolower (guess.getD i 0)] := by
            rw [List.map_append]
            rw [show (List.map (fun j => tolower (secret.getD j 0)) [j]) =
              [tolower (secret.getD j 0)] from rfl]
            rw [hjy]
          rw [e1, ← Multiset.coe_add, ← Multiset.cons_coe]
          calc ((ns.map fun j => tolower (secret.getD j 0) : List Nat) : Multiset Nat) +
                (([tolower (guess.getD i 0)] : List Nat) : Multiset Nat) =
              ({tolower (guess.getD i 0)} : Multiset Nat) +
                ((ns.map fun j => tolower (secret.getD j 0) : List Nat) : Multiset Nat) := by
                rw [add_comm]
                rfl
            _ ≤ ({tolower (guess.getD i 0)} : Multiset Nat) +
                (((is.filter fun i =>
                    !(decide (tolower (guess.getD i 0) = tolower (secret.getD i 0)))).map
                  fun i => tolower (guess.getD i 0) : List Nat) : Multiset Nat) :=
              add_le_add_left h4 _
            _ = _ := Multiset.singleton_add _ _
      | none =>
        obtain ⟨ns, h1, h2, h3, h4⟩ := ih c hnd hlt
        refine ⟨ns, h1, h2, ?_, ?_⟩
        · rw [show specPass2 secret guess c (i :: is) =
              LetterScore.absent :: specPass2 secret guess c is from by
            simp only [specPass2, if_neg hm, hfind]]
          rw [List.countP_cons_of_neg _ _ (by decide)]
          exact h3
        · rw [hkeep, List.map_cons]
          exact le_trans h4 (Multiset.le_cons_self _ _)

/-- C4: CorrectPosition plus WrongPosition marks never exceed the size of
the case-insensitive multiset intersection of the guess letters with the
secret letters — no secret letter is credited twice. -/
theorem credited_le_inter (secret guess : List Nat)
    (hs : secret.length = 5) (hg : guess.length = 5) :
    countChar '%' (resultString secret guess) +
        countChar '?' (resultString secret guess) ≤
      Multiset.card (((guess.map tolower : List Nat) : Multiset Nat) ∩
        ((secret.map tolower : List Nat) : Multiset Nat)) := by
  have hc1nd : (specConsumed1 secret guess).Nodup :=
    List.Nodup.filter _ (List.nodup_range 5)
  have hc1lt : ∀ j ∈ specConsumed1 secret guess, j < 5 := fun j hj =>
    List.mem_range.mp (List.mem_filter.mp hj).1
  obtain ⟨ns, h1, h2, h3, h4⟩ :=
    specPass2_credit secret guess (List.range 5) (specConsumed1 secret guess) hc1nd hc1lt
  -- the two counts
  have hcp : countChar '%' (resultString secret guess) =
      (specConsumed1 secret guess).length := by
    rw [countChar_spec secret guess '%' LetterScore.correctPosition charToScore_eq_correct]
    exact specPass2_countCP secret guess (List.range 5) (specConsumed1 secret guess)
  have hwp : countChar '?' (resultString secret guess) = ns.length := by
    rw [countChar_spec secret guess '?' LetterScore.wrongPosition charToScore_eq_wrong]
    exact h3
  -- the credited multiset of secret letters
  have hTS : (((ns ++ specConsumed1 secret guess).map
      fun j => tolower (secret.getD j 0)) : Multiset Nat) ≤
      ((secret.map tolower : List Nat) : Multiset Nat) := by
    have hsub : (ns ++ specConsumed1 secret guess) ⊆ List.range 5 := by
      intro x hx
      rcases List.mem_append.mp hx with h | h
      · exact List.mem_range.mpr (h2 x h)
      · exact List.mem_range.mpr (hc1lt x h)
    have hsp := List.subperm_of_subset h1 hsub
    have := Multiset.map_le_map (f := fun j => tolower (secret.getD j 0))
      (Multiset.coe_le.mpr hsp)
    rw [Multiset.map_coe, Multiset.map_coe,
      range5_map_getD tolower secret hs] at this
    exact this
  have hTG : (((ns ++ specConsumed1 secret guess).map
      fun j => tolower (secret.getD j 0)) : Multiset Nat) ≤
      ((guess.map tolower : List Nat) : Multiset Nat) := by
    rw [List.map_append, ← Multiset.coe_add]
    have hc1g : ((specConsumed1 secret guess).map fun j => tolower (secret.getD j 0)) =
        ((specConsumed1 secret guess).map fun j => tolower (guess.getD j 0)) :=
      List.map_congr_left (fun j hj => by
        have := (List.mem_filter.mp hj).2
        simp only [decide_eq_true_eq] at this
        exact this.symm)
    rw [hc1g]
    have hperm : (((List.range 5).filter fun i =>
          !(decide (tolower (guess.getD i 0) = tolower (secret.getD i 0)))) ++
        specConsumed1 secret guess).Perm (List.range 5) := by
      have := List.filter_append_perm (fun i =>
        decide (tolower (guess.getD i 0) = tolower (secret.getD i 0))) (List.range 5)
      exact (List.perm_append_comm.trans this)
    have hmapperm := List.Perm.map (fun i => tolower (guess.getD i 0)) hperm
    calc (((ns.map fun j => tolower (secret.getD j 0)) : List Nat) : Multiset Nat) +
          (((specConsumed1 secret guess).map fun j => tolower (guess.getD j 0)) : List Nat) ≤
        ((((List.range 5).filter fun i =>
            !(decide (tolower (guess.getD i 0) = tolower (secret.getD i 0)))).map
          fun i => tolower (guess.getD i 0)) : Multiset Nat) +
          (((specConsumed1 secret guess).map fun j => tolower (guess.getD j 0)) : List Nat) :=
        add_le_add_right h4 _
      _ = (((((List.range 5).filter fun i =>
            !(decide (tolower (guess.getD i 0) = tolower (secret.getD i 0)))) ++
          specConsumed1 secret guess).map fun i => tolower (guess.getD i 0)) : List Nat) := by
        rw [Multiset.coe_add, List.map_append]
      _ = (((List.range 5).map fun i => tolower (guess.getD i 0) : List Nat) : Multiset Nat) :=
        Multiset.coe_eq_coe.mpr hmapperm
      _ = ((guess.map tolower : List Nat) : Multiset Nat) := by
        rw [range5_map_getD tolower guess hg]
  have hle := Multiset.card_le_card (Multiset.le_inter hTG hTS)
  rw [Multiset.coe_card, List.length_map, List.length_append] at hle
  rw [hcp, hwp]
  omega

theorem credited_le_inter_witness :
    (strBytes "CRANE").length = 5 ∧ (strBytes "CANOE").length = 5 ∧
      countChar '%' (resultString (strBytes "CRANE") (strBytes "CANOE")) +
          countChar '?' (resultString (strBytes "CRANE") (strBytes "CANOE")) ≤
        Multiset.card ((((strBytes "CANOE").map tolower : List Nat) : Multiset Nat) ∩
          (((strBytes "CRANE").map tolower : List Nat) : Multiset Nat)) :=
  ⟨by decide, by decide,
    credited_le_inter (strBytes "CRANE") (strBytes "CANOE") (by decide) (by decide)⟩

/-! ## Well-formedness of the result buffer (C9) -/

theorem pass1_getD_cases (secret guess : List Nat) :
    ∀ (is : List Nat) (result : List Char) (used : List Bool) (k : Nat) (d : Char),
      (pass1 secret guess result used is).1.getD k d = result.getD k d ∨
      (pass1 secret guess result used is).1.getD k d = '%' := by
  intro is
  induction is with
  | nil => intro r u k d; exact Or.inl rfl
  | cons i is ih =>
    intro r u k d
    simp only [pass1]
    split
    · rcases ih (r.set i '%') (u.set i true) k d with h | h
      · rcases getD_set_cases r i k '%' d with h2 | h2
        · exact Or.inl (h.trans h2)
        · exact Or.inr (h.trans h2)
      · exact Or.inr h
    · exact ih r u k d

theorem pass2_getD_cases (secret guess : List Nat) :
    ∀ (is : List Nat) (result : List Char) (used : List Bool) (k : Nat) (d : Char),
      (pass2 secret guess result used is).1.getD k d = result.getD k d ∨
      (pass2 secret guess result used is).1.getD k d = '?' := by
  intro is
  induction is with
  | nil => intro r u k d; exact Or.inl rfl
  | cons i is ih =>
    intro r u k d
    by_cases hifc : r.getD i '-' ≠ '%'
    · cases hscan : scan secret u (guess.getD i 0) (List.range 5) with
      | none =>
        simp only [pass2, if_pos hifc, hscan]
        exact ih r u k d
      | some j =>
        simp only [pass2, if_pos hifc, hscan]
        rcases ih (r.set i '?') (u.set j true) k d with h | h
        · rcases getD_set_cases r i k '?' d with h2 | h2
          · exact Or.inl (h.trans h2)
          · exact Or.inr (h.trans h2)
        · exact Or.inr h
    · simp only [pass2, if_neg hifc]
      exact ih r u k d

theorem check_guess_length (secret guess : List Nat) :
    (check_guess secret guess).length = 6 := by
  rw [check_guess_eq, pass2_result_length,
    (pass1_length secret guess (List.range 5) _ _).1]
  rfl

theorem check_guess_nul (secret guess : List Nat) :
    (check_guess secret guess).getD 5 '-' = Char.ofNat 0 := by
  rw [check_guess_eq,
    pass2_getD_not_mem secret guess (List.range 5) _ _ 5 '-' (by decide),
    (pass1_getD_not_mem secret guess (List.range 5) _ _ 5 '-' false (by decide)).1]
  rfl

/-- C9: the buffer filled by check_guess is always well formed, whatever
the letters: six bytes, the last a NUL terminator, and each of the first
five one of percent, question mark or dash. -/
theorem result_well_formed (secret guess : List Nat)
    (_hs : secret.length = 5) (_hg : guess.length = 5) :
    (check_guess secret guess).length = 6 ∧
    (check_guess secret guess).getD 5 '-' = Char.ofNat 0 ∧
    ∀ i, i < 5 → (check_guess secret guess).getD i '-' ∈ (['%', '?', '-'] : List Char) := by
  refine ⟨check_guess_length secret guess, check_guess_nul secret guess, ?_⟩
  intro i hi
  rw [check_guess_eq]
  rcases pass2_getD_cases secret guess (List.range 5) _ _ i '-' with h2 | h2
  · rcases pass1_getD_cases secret guess (List.range 5) _ _ i '-' with h1 | h1
    · rw [h2, h1]
      have hb : (List.replicate 5 '-' ++ [Char.ofNat 0]).getD i '-' = '-' := by
        interval_cases i <;> rfl
      rw [hb]
      decide
    · rw [h2, h1]
      decide
  · rw [h2]
    decide

theorem result_well_formed_witness :
    (strBytes "CRANE").length = 5 ∧ (strBytes "CANOE").length = 5 ∧
      ((check_guess (strBytes "CRANE") (strBytes "CANOE")).length = 6 ∧
      (check_guess (strBytes "CRANE") (strBytes "CANOE")).getD 5 '-' = Char.ofNat 0 ∧
      ∀ i, i < 5 →
        (check_guess (strBytes "CRANE") (strBytes "CANOE")).getD i '-' ∈
          (['%', '?', '-'] : List Char)) :=
  ⟨by decide, by decide,
    result_well_formed (strBytes "CRANE") (strBytes "CANOE") (by decide) (by decide)⟩

/-!
## The driver loop (wordle.c main, lines 148-185)

The session state is the triple of the `main` variables `secret_word`,
`attempts` and `guessed_correctly`.  One loop iteration with a scanned
token is `submitGuess`; the loop guard of line 158 is `loopContinues`; the
three state names of the specification are read off the variables by
`sessionStatus` (Won = guessed_correctly, Exhausted = not guessed and
attempts at the limit, InProgress otherwise).
-/

structure Session where
  secret : List Nat
  attempts : Nat
  guessed : Bool
deriving DecidableEq

/-- Lines 149-153: attempts start at 0, guessed_correctly at false. -/
def initSession (secret : List Nat) : Session := Session.mk secret 0 false

/-- The attempt number printed by the prompt of line 159. -/
def promptNumber (st : Session) : Nat := st.attempts + 1

/-- Lines 163-176: one loop iteration on the token held in the guess
buffer, which is 6 bytes (line 150) and therefore holds at most 5
characters; `submitToken` models the scanf read that stores it.  A stored
token whose length is not 5 is rejected before anything changes (lines
163-166); a winning result string sets guessed_correctly (lines 171-173);
otherwise attempts increments (line 175). -/
def submitGuess (st : Session) (guess : List Nat) : Session :=
  if guess.length ≠ 5 then st
  else if resultString st.secret guess = ['%', '%', '%', '%', '%'] then
    Session.mk st.secret st.attempts true
  else Session.mk st.secret (st.attempts + 1) st.guessed

/-- Lines 159-176 including the scanf read of line 160: the whitespace-free
token is written into the 6-byte guess buffer.  A token of more than 5
characters overflows the buffer before the length check of line 163 runs —
undefined behaviour that can clobber the adjacent locals — modelled as
`none`.  A token that fits is stored verbatim and the iteration proceeds
as `submitGuess`. -/
def submitToken (st : Session) (token : List Nat) : Option Session :=
  if 5 < token.length then none
  else some (submitGuess st token)

/-- The loop guard of line 158. -/
def loopContinues (st : Session) : Bool := decide (st.attempts < 6) && !st.guessed

inductive SessionStatus where
  | inProgress
  | won
  | exhausted
deriving DecidableEq

def sessionStatus (st : Session) : SessionStatus :=
  if st.guessed then SessionStatus.won
  else if 6 ≤ st.attempts then SessionStatus.exhausted
  else SessionStatus.inProgress

/-- The driver loop over a stream of scanned tokens; it stops when the
guard fails or the stream ends. -/
def runGame (st : Session) : List (List Nat) → Session
  | [] => st
  | g :: gs => if loopContinues st then runGame (submitGuess st g) gs else st

/-- Line 179: after the loop the secret word is printed exactly when
guessed_correctly is false. -/
def revealsSecret (st : Session) : Bool := !st.guessed

/-- C5 (counterexample): the claim quantifies over every guess whose
length is not 5, but a token of 6 characters overflows the 6-byte scanf
buffer: the iteration has no defined resulting session state at all, so
"the session state is unchanged" fails there. -/
theorem invalid_guess_claim_false :
    (strBytes "ABCDEF").length ≠ 5 ∧
    submitToken (initSession (strBytes "CRANE")) (strBytes "ABCDEF") ≠
      some (initSession (strBytes "CRANE")) := by
  decide

/-- C5 (amended): every submitted guess that fits the 6-byte scanf buffer
and whose length is not 5 — that is, every token of fewer than 5
characters — changes nothing: the whole session state (secret, attempt
counter, completion flag) is unchanged and the same attempt number is
prompted again.  Longer tokens overflow the buffer and the behaviour is
undefined. -/
theorem invalid_guess_no_change (st : Session) (guess : List Nat)
    (h : guess.length < 5) :
    submitToken st guess = some st ∧
    promptNumber (submitGuess st guess) = promptNumber st := by
  have hne : guess.length ≠ 5 := by omega
  have hfit : ¬ (5 < guess.length) := by omega
  have hsub : submitGuess st guess = st := by rw [submitGuess, if_pos hne]
  constructor
  · rw [submitToken, if_neg hfit, hsub]
  · rw [hsub]

theorem invalid_guess_no_change_witness :
    (strBytes "WORD").length < 5 ∧
      (submitToken (initSession (strBytes "CRANE")) (strBytes "WORD") =
          some (initSession (strBytes "CRANE")) ∧
        promptNumber (submitGuess (initSession (strBytes "CRANE")) (strBytes "WORD")) =
          promptNumber (initSession (strBytes "CRANE"))) :=
  ⟨by decide, invalid_guess_no_change (initSession (strBytes "CRANE"))
    (strBytes "WORD") (by decide)⟩

/-- C6: the session starts InProgress with counter 0, and a well-formed
guess transitions exactly as specified: an all-CorrectPosition result
string yields the terminal Won state without touching the counter, any
other result increments the counter, reaching Exhausted exactly at
MAX_ATTEMPTS = 6 and otherwise staying InProgress. -/
theorem session_transitions (secret : List Nat) (st : Session) (guess : List Nat)
    (hlen : guess.length = 5) (hg : st.guessed = false) (ha : st.attempts < 6) :
    (sessionStatus (initSession secret) = SessionStatus.inProgress ∧
      (initSession secret).attempts = 0) ∧
    (resultString st.secret guess = ['%', '%', '%', '%', '%'] →
      submitGuess st guess = Session.mk st.secret st.attempts true ∧
      sessionStatus (submitGuess st guess) = SessionStatus.won ∧
      (submitGuess st guess).attempts = st.attempts ∧
      loopContinues (submitGuess st guess) = false) ∧
    (resultString st.secret guess ≠ ['%', '%', '%', '%', '%'] →
      (submitGuess st guess).attempts = st.attempts + 1 ∧
      (sessionStatus (submitGuess st guess) = SessionStatus.exhausted ↔
        st.attempts + 1 = 6) ∧
      (sessionStatus (submitGuess st guess) = SessionStatus.inProgress ↔
        st.attempts + 1 < 6)) := by
  have hn5 : ¬ (guess.length ≠ 5) := fun h => h hlen
  refine ⟨⟨rfl, rfl⟩, ?_, ?_⟩
  · intro hall
    have hsub : submitGuess st guess = Session.mk st.secret st.attempts true := by
      rw [submitGuess, if_neg hn5, if_pos hall]
    refine ⟨hsub, ?_, ?_, ?_⟩
    · rw [hsub]
      rfl
    · rw [hsub]
    · rw [hsub]
      simp [loopContinues]
  · intro hnall
    have hsub : submitGuess st guess = Session.mk st.secret (st.attempts + 1) st.guessed := by
      rw [submitGuess, if_neg hn5, if_neg hnall]
    have hstat : sessionStatus (submitGuess st guess) =
        if 6 ≤ st.attempts + 1 then SessionStatus.exhausted
        else SessionStatus.inProgress := by
      rw [hsub]
      show (if st.guessed = true then SessionStatus.won
        else if 6 ≤ st.attempts + 1 then SessionStatus.exhausted
        else SessionStatus.inProgress) = _
      rw [hg, if_neg (by decide : ¬ (false = true))]
    refine ⟨by rw [hsub], ?_, ?_⟩
    · rw [hstat]
      by_cases h6 : 6 ≤ st.attempts + 1
      · rw [if_pos h6]
        exact iff_of_true rfl (by omega)
      · rw [if_neg h6]
        exact iff_of_false (by decide) (by omega)
    · rw [hstat]
      by_cases h6 : 6 ≤ st.attempts + 1
      · rw [if_pos h6]
        exact iff_of_false (by decide) (by omega)
      · rw [if_neg h6]
        exact iff_of_true rfl (by omega)

theorem session_transitions_witness :
    (strBytes "CANOE").length = 5 ∧
      (initSession (strBytes "CRANE")).guessed = false ∧
      (initSession (strBytes "CRANE")).attempts < 6 ∧
      ((sessionStatus (initSession (strBytes "HELLO")) = SessionStatus.inProgress ∧
        (initSession (strBytes "HELLO")).attempts = 0) ∧
      (resultString (initSession (strBytes "CRANE")).secret (strBytes "CANOE") =
          ['%', '%', '%', '%', '%'] →
        submitGuess (initSession (strBytes "CRANE")) (strBytes "CANOE") =
          Session.mk (initSession (strBytes "CRANE")).secret
            (initSession (strBytes "CRANE")).attempts true ∧
        sessionStatus (submitGuess (initSession (strBytes "CRANE")) (strBytes "CANOE")) =
          SessionStatus.won ∧
        (submitGuess (initSession (strBytes "CRANE")) (strBytes "CANOE")).attempts =
          (initSession (strBytes "CRANE")).attempts ∧
        loopContinues (submitGuess (initSession (strBytes "CRANE")) (strBytes "CANOE")) =
          false) ∧
      (resultString (initSession (strBytes "CRANE")).secret (strBytes "CANOE") ≠
          ['%', '%', '%', '%', '%'] →
        (submitGuess (initSession (strBytes "CRANE")) (strBytes "CANOE")).attempts =
          (initSession (strBytes "CRANE")).attempts + 1 ∧
        (sessionStatus (submitGuess (initSession (strBytes "CRANE")) (strBytes "CANOE")) =
            SessionStatus.exhausted ↔
          (initSession (strBytes "CRANE")).attempts + 1 = 6) ∧
        (sessionStatus (submitGuess (initSession (strBytes "CRANE")) (strBytes "CANOE")) =
            SessionStatus.inProgress ↔
          (initSession (strBytes "CRANE")).attempts + 1 < 6))) :=
  ⟨by decide, by decide, by decide,
    session_transitions (strBytes "HELLO") (initSession (strBytes "CRANE"))
      (strBytes "CANOE") (by decide) (by decide) (by decide)⟩

theorem submitGuess_attempts_le (st : Session) (g : List Nat) :
    (submitGuess st g).attempts ≤ st.attempts + 1 := by
  rw [submitGuess]
  split_ifs
  · exact Nat.le_succ _
  · exact Nat.le_succ _
  · exact Nat.le_refl _

theorem runGame_attempts_le (gs : List (List Nat)) :
    ∀ st : Session, st.attempts ≤ 6 → (runGame st gs).attempts ≤ 6 := by
  induction gs with
  | nil => intro st h; exact h
  | cons g gs ih =>
    intro st h
    by_cases hc : loopContinues st = true
    · rw [show runGame st (g :: gs) = runGame (submitGuess st g) gs from by
        rw [runGame, if_pos hc]]
      apply ih
      have hlt : st.attempts < 6 := by
        have := (Bool.and_eq_true _ _).mp hc
        exact of_decide_eq_true this.1
      have := submitGuess_attempts_le st g
      omega
    · rw [show runGame st (g :: gs) = st from by rw [runGame, if_neg hc]]
      exact h

theorem reveal_of_terminal (st : Session)
    (hterm : sessionStatus st ≠ SessionStatus.inProgress) :
    (revealsSecret st = true ↔ sessionStatus st = SessionStatus.exhausted) ∧
    (sessionStatus st = SessionStatus.won → revealsSecret st = false) := by
  cases hg : st.guessed
  · have hrev : revealsSecret st = true := by
      rw [revealsSecret, hg]
      rfl
    have hstat : sessionStatus st =
        if 6 ≤ st.attempts then SessionStatus.exhausted else SessionStatus.inProgress := by
      rw [sessionStatus, hg, if_neg (by decide : ¬ (false = true))]
    by_cases h6 : 6 ≤ st.attempts
    · rw [hstat, if_pos h6]
      exact ⟨iff_of_true hrev rfl, fun h => absurd h (by decide)⟩
    · exact absurd (by rw [hstat, if_neg h6]) hterm
  · have hrev : revealsSecret st = false := by
      rw [revealsSecret, hg]
      rfl
    have hstat : sessionStatus st = SessionStatus.won := by
      rw [sessionStatus, hg, if_pos rfl]
    rw [hstat, hrev]
    exact ⟨iff_of_false (by decide) (by decide), fun _ => rfl⟩

/-- C7: when the driver loop has reached a terminal state, the secret word
is printed if and only if the session is Exhausted; on a Won termination
it is never printed. -/
theorem reveal_iff_exhausted (secret : List Nat) (gs : List (List Nat))
    (hterm : sessionStatus (runGame (initSession secret) gs) ≠ SessionStatus.inProgress) :
    (revealsSecret (runGame (initSession secret) gs) = true ↔
      sessionStatus (runGame (initSession secret) gs) = SessionStatus.exhausted) ∧
    (sessionStatus (runGame (initSession secret) gs) = SessionStatus.won →
      revealsSecret (runGame (initSession secret) gs) = false) :=
  reveal_of_terminal _ hterm

theorem reveal_iff_exhausted_witness :
    sessionStatus (runGame (initSession (strBytes "CRANE"))
        (List.replicate 6 (strBytes "MOUNT"))) ≠ SessionStatus.inProgress ∧
      ((revealsSecret (runGame (initSession (strBytes "CRANE"))
          (List.replicate 6 (strBytes "MOUNT"))) = true ↔
        sessionStatus (runGame (initSession (strBytes "CRANE"))
          (List.replicate 6 (strBytes "MOUNT"))) = SessionStatus.exhausted) ∧
      (sessionStatus (runGame (initSession (strBytes "CRANE"))
          (List.replicate 6 (strBytes "MOUNT"))) = SessionStatus.won →
        revealsSecret (runGame (initSession (strBytes "CRANE"))
          (List.replicate 6 (strBytes "MOUNT"))) = false)) :=
  ⟨by decide, reveal_iff_exhausted (strBytes "CRANE")
    (List.replicate 6 (strBytes "MOUNT")) (by decide)⟩

/-!
## Loading the word list (wordle.c choose_random_word, lines 94-128)

The file is a byte stream.  One `fgets(word[k], 6, file)` call reads at
most five bytes, stopping right after a newline byte; it returns NULL only
at end of file.  `fgetsChunk n bytes` returns the bytes read and the rest
of the stream.  Line 107 truncates the buffer at its first newline (and a
C string also ends at its first NUL byte), line 110 keeps entries of
strlen exactly 5, and line 112 stops reading once 1500 entries are stored.
Because a call reads at most five bytes, a line longer than five
characters is split across calls rather than skipped whole.
-/

def fgetsChunk (n : Nat) (bytes : List Nat) : List Nat × List Nat :=
  match n, bytes with
  | 0, bs => ([], bs)
  | _ + 1, [] => ([], [])
  | n + 1, b :: bs =>
    if b = 10 then ([b], bs)
    else (b :: (fgetsChunk n bs).1, (fgetsChunk n bs).2)

theorem fgetsChunk_rest_le : ∀ (n : Nat) (bs : List Nat),
    (fgetsChunk n bs).2.length ≤ bs.length := by
  intro n
  induction n with
  | zero => intro bs; exact Nat.le_refl _
  | succ n ih =>
    intro bs
    cases bs with
    | nil => exact Nat.le_refl _
    | cons b bs =>
      by_cases hb : b = 10
      · simp only [fgetsChunk, if_pos hb]
        exact Nat.le_succ _
      · simp only [fgetsChunk, if_neg hb]
        exact Nat.le_trans (ih bs) (Nat.le_succ _)

theorem fgetsChunk_rest_lt (n : Nat) (b : Nat) (bs : List Nat) :
    (fgetsChunk (n + 1) (b :: bs)).2.length < (b :: bs).length := by
  by_cases hb : b = 10
  · simp only [fgetsChunk, if_pos hb, List.length_cons]
    omega
  · simp only [fgetsChunk, if_neg hb, List.length_cons]
    exact Nat.lt_succ_of_le (fgetsChunk_rest_le n bs)

theorem fgetsChunk5_rest_lt (b : Nat) (bs : List Nat) :
    (fgetsChunk 5 (b :: bs)).2.length < (b :: bs).length :=
  fgetsChunk_rest_lt 4 b bs

/-- The C string stored in the word buffer after line 107: the chunk up to
its first newline or NUL byte. -/
def trimChunk (chunk : List Nat) : List Nat :=
  chunk.takeWhile fun x => !(decide (x = 10)) && !(decide (x = 0))

/-- The reading loop of lines 105-114, with an explicit iteration bound:
collect entries of length exactly 5, stopping at end of file or once 1500
entries are stored (MAX_WORDS, checked after the increment of line 111).
Every iteration consumes at least one byte, so any bound of at least the
stream length gives the behaviour of the loop (`readWordsGo_fuel`). -/
def readWordsGo : Nat → List Nat → Nat → List (List Nat)
  | 0, _, _ => []
  | _ + 1, [], _ => []
  | fuel + 1, b :: bs, count =>
    if (trimChunk (fgetsChunk 5 (b :: bs)).1).length = 5 then
      if 1500 ≤ count + 1 then [trimChunk (fgetsChunk 5 (b :: bs)).1]
      else trimChunk (fgetsChunk 5 (b :: bs)).1 ::
        readWordsGo fuel (fgetsChunk 5 (b :: bs)).2 (count + 1)
    else readWordsGo fuel (fgetsChunk 5 (b :: bs)).2 count

/-- The reading loop run to completion on the whole stream. -/
def readWords (bytes : List Nat) (count : Nat) : List (List Nat) :=
  readWordsGo bytes.length bytes count

theorem readWordsGo_fuel :
    ∀ (fuel1 : Nat) (fuel2 : Nat) (bytes : List Nat) (count : Nat),
      bytes.length ≤ fuel1 → bytes.length ≤ fuel2 →
      readWordsGo fuel1 bytes count = readWordsGo fuel2 bytes count := by
  intro fuel1
  induction fuel1 with
  | zero =>
    intro fuel2 bytes count h1 _
    have hb : bytes = [] := List.length_eq_zero.mp (Nat.le_zero.mp h1)
    subst hb
    cases fuel2 <;> rfl
  | succ fuel1 ih =>
    intro fuel2 bytes count h1 h2
    cases bytes with
    | nil => cases fuel2 <;> rfl
    | cons b bs =>
      cases fuel2 with
      | zero => exact absurd h2 (by simp)
      | succ fuel2 =>
        have hrest1 : (fgetsChunk 5 (b :: bs)).2.length ≤ fuel1 := by
          have := fgetsChunk5_rest_lt b bs
          simp only [List.length_cons] at this h1
          omega
        have hrest2 : (fgetsChunk 5 (b :: bs)).2.length ≤ fuel2 := by
          have := fgetsChunk5_rest_lt b bs
          simp only [List.length_cons] at this h2
          omega
        simp only [readWordsGo]
        rw [ih fuel2 (fgetsChunk 5 (b :: bs)).2 (count + 1) hrest1 hrest2,
          ih fuel2 (fgetsChunk 5 (b :: bs)).2 count hrest1 hrest2]

/-- The same loop without the MAX_WORDS stop, for comparison. -/
def readAllGo : Nat → List Nat → List (List Nat)
  | 0, _ => []
  | _ + 1, [] => []
  | fuel + 1, b :: bs =>
    if (trimChunk (fgetsChunk 5 (b :: bs)).1).length = 5 then
      trimChunk (fgetsChunk 5 (b :: bs)).1 :: readAllGo fuel (fgetsChunk 5 (b :: bs)).2
    else readAllGo fuel (fgetsChunk 5 (b :: bs)).2

def readAllWords (bytes : List Nat) : List (List Nat) :=
  readAllGo bytes.length bytes

inductive ExitStatus where
  | success
  | failure
deriving DecidableEq

/-- choose_random_word: `none` models the two `exit(EXIT_FAILURE)` calls
(file cannot be opened, lines 96-99; no valid words, lines 118-121);
otherwise the entry at `rand() % word_count` is returned (lines 123-127).
The file argument is `none` when the file cannot be opened, otherwise its
byte contents. -/
def choose_random_word (file : Option (List Nat)) (r : Nat) : Option (List Nat) :=
  match file with
  | none => none
  | some bytes =>
    if (readWords bytes 0).length = 0 then none
    else some ((readWords bytes 0).getD (r % (readWords bytes 0).length) [])

/-- The process exit status of `main`: EXIT_FAILURE comes only out of
choose_random_word; once a secret word exists the loop runs and `main`
returns EXIT_SUCCESS (lines 183-184) whatever the game outcome. -/
def mainExit (file : Option (List Nat)) (r : Nat) (gs : List (List Nat)) : ExitStatus :=
  match choose_random_word file r with
  | none => ExitStatus.failure
  | some w =>
    let _ := runGame (initSession w) gs
    ExitStatus.success

/-- The reading of the word-list file that claim C8 describes: the lines
of the file (split at newline bytes) that consist of exactly 5
characters. -/
def fiveCharLines (bytes : List Nat) : List (List Nat) :=
  (bytes.splitOn 10).filter fun l => decide (l.length = 5)

/-- C8 (counterexample): a word-list file consisting of the single line
"abcdef" has no line of exactly 5 characters after newline trimming, yet
the process exits successfully: fgets reads at most five bytes per call,
so the entry "abcde" is stored and the empty-list failure is not taken. -/
theorem exit_claim_false :
    fiveCharLines (strBytes "abcdef\n") = [] ∧
    mainExit (some (strBytes "abcdef\n")) 0 [] = ExitStatus.success := by
  decide

/-- C8 (amended): the process exits with a failure status exactly when
the word-list file cannot be opened or the reading loop extracts zero
5-character entries (the loop reads in chunks of at most five bytes, so a
longer line contributes its 5-byte chunks rather than being skipped
whole); in every other run — in particular on every terminal game path,
won or exhausted — it exits successfully. -/
theorem exit_failure_iff (file : Option (List Nat)) (r : Nat) (gs : List (List Nat)) :
    mainExit file r gs = ExitStatus.failure ↔
      (file = none ∨ ∃ bytes, file = some bytes ∧ readWords bytes 0 = []) := by
  cases file with
  | none => simp [mainExit, choose_random_word]
  | some bytes =>
    by_cases h : (readWords bytes 0).length = 0
    · have hnil : readWords bytes 0 = [] := List.length_eq_zero.mp h
      simp [mainExit, choose_random_word, h, hnil]
    · have hne : ¬ readWords bytes 0 = [] := fun hh => h (by rw [hh]; rfl)
      simp [mainExit, choose_random_word, h, hne]

theorem readWordsGo_take :
    ∀ (fuel : Nat) (bytes : List Nat) (count : Nat), count < 1500 →
      readWordsGo fuel bytes count = (readAllGo fuel bytes).take (1500 - count) := by
  intro fuel
  induction fuel with
  | zero => intro bytes count _; simp [readWordsGo, readAllGo]
  | succ fuel ih =>
    intro bytes count hc
    cases bytes with
    | nil => simp [readWordsGo, readAllGo]
    | cons b bs =>
      by_cases hw : (trimChunk (fgetsChunk 5 (b :: bs)).1).length = 5
      · by_cases hcap : 1500 ≤ count + 1
        · have hone : 1500 - count = 1 := by omega
          simp only [readWordsGo, readAllGo, if_pos hw, if_pos hcap, hone,
            List.take_succ_cons, List.take_zero]
        · have hsub : 1500 - count = (1500 - (count + 1)) + 1 := by omega
          simp only [readWordsGo, readAllGo, if_pos hw, if_neg hcap]
          rw [ih (fgetsChunk 5 (b :: bs)).2 (count + 1) (by omega), hsub,
            List.take_succ_cons]
      · simp only [readWordsGo, readAllGo, if_neg hw]
        exact ih (fgetsChunk 5 (b :: bs)).2 count hc

/-- C10: at most MAX_WORDS = 1500 entries are stored: the stored list is
the first 1500 valid entries of the file, and the chosen secret word is
always one of them, so any entry appearing only after the cap can never
be selected. -/
theorem max_words_cap (bytes : List Nat) (r : Nat) :
    (readWords bytes 0).length ≤ 1500 ∧
    readWords bytes 0 = (readAllWords bytes).take 1500 ∧
    (∀ w, choose_random_word (some bytes) r = some w → w ∈ readWords bytes 0) := by
  have heq : readWords bytes 0 = (readAllWords bytes).take 1500 := by
    have := readWordsGo_take bytes.length bytes 0 (by omega)
    simpa [readWords, readAllWords] using this
  refine ⟨by rw [heq]; exact List.length_take_le _ _, heq, ?_⟩
  intro w hw
  by_cases h : (readWords bytes 0).length = 0
  · rw [show choose_random_word (some bytes) r = none from by
      simp [choose_random_word, h]] at hw
    exact absurd hw (by simp)
  · have hidx : r % (readWords bytes 0).length < (readWords bytes 0).length :=
      Nat.mod_lt _ (Nat.pos_of_ne_zero h)
    have hcc : choose_random_word (some bytes) r =
        some ((readWords bytes 0).getD (r % (readWords bytes 0).length) []) := by
      simp [choose_random_word, h]
    rw [hcc] at hw
    rw [← Option.some_inj.mp hw, List.getD_eq_getElem _ _ hidx]
    exact List.getElem_mem hidx

theorem max_words_cap_witness :
    choose_random_word (some (strBytes "crane\n")) 0 = some (strBytes "crane") ∧
      strBytes "crane" ∈ readWords (strBytes "crane\n") 0 :=
  ⟨by decide, (max_words_cap (strBytes "crane\n") 0).2.2 (strBytes "crane") (by decide)⟩

end Wordle
